import Mathlib

/-!
Verification development for the snowflake repository.

Part I embeds `State` and `State::update` from `src/gravner_griffeath.rs`:
an N×N toroidal lattice with hexagonal (6-neighbor) connectivity carrying
per-cell fields `a` (ice), `b` (boundary mass), `c` (crystal mass),
`d` (vapor density).  The five update stages (Diffusion, Freezing,
Attachment, Melting, Noise) are translated stage by stage; `f32`
arithmetic is embedded as exact rational arithmetic, and the random
boolean field drawn in the Noise stage is passed in as an explicit
coin function.

Part II embeds `extract_contours` from `src/utils.rs`: the hash map of
directed edges is modelled as an association list with insertion-order
iteration, and the two boundary-walk loops are given explicit fuel,
with the adequacy of that fuel proved separately.
-/

namespace Snowflake

/-- Configuration parameters of `SimulationConfigInner`. -/
structure Cfg where
  rho : ℚ
  beta : ℚ
  alpha : ℚ
  theta : ℚ
  kappa : ℚ
  mu : ℚ
  gamma : ℚ
  sigma : ℚ

/-- The default parameter set (`SimulationConfigInner::default`). -/
def defaultCfg : Cfg :=
  { rho := 1/2, beta := 7/5, alpha := 1/10, theta := 1/200,
    kappa := 1/1000, mu := 3/50, gamma := 1/1000, sigma := 0 }

/-- The lattice state of the Gravner–Griffeath simulator (`struct State`). -/
structure GGState (n : ℕ) where
  a : Fin n → Fin n → Bool
  b : Fin n → Fin n → ℚ
  c : Fin n → Fin n → ℚ
  d : Fin n → Fin n → ℚ

variable {n : ℕ}

/-- The seed index `n / 2` (the cell `[[n/2, n/2]]`). -/
def seedIdx (n : ℕ) [NeZero n] : Fin n :=
  ⟨n / 2, Nat.div_lt_self (Nat.pos_of_neZero n) one_lt_two⟩

/-- `State::new`: single ice seed at the center, `c = 1` and `d = 0` there,
`d = rho` elsewhere, `b = 0` everywhere. -/
def initState (n : ℕ) [NeZero n] (rho : ℚ) : GGState n where
  a := fun i j => i == seedIdx n && j == seedIdx n
  b := fun _ _ => 0
  c := fun i j => if i = seedIdx n ∧ j = seedIdx n then 1 else 0
  d := fun i j => if i = seedIdx n ∧ j = seedIdx n then 0 else rho

/-- Count of frozen cells among the 6 toroidal hex neighbors
(the `neighbors` array of `State::update`), in source order
`(i+1,j), (i-1,j), (i,j+1), (i,j-1), (i-1,j+1), (i+1,j-1)`. -/
def nbrCount [NeZero n] (a : Fin n → Fin n → Bool) (i j : Fin n) : ℕ :=
  (if a (i + 1) j then 1 else 0) + (if a (i - 1) j then 1 else 0) +
  (if a i (j + 1) then 1 else 0) + (if a i (j - 1) then 1 else 0) +
  (if a (i - 1) (j + 1) then 1 else 0) + (if a (i + 1) (j - 1) then 1 else 0)

/-- Sum of a rational field over the 6 toroidal hex neighbors, in source
order (used by the Diffusion stage and the `k == 3` attachment test). -/
def dsum6 [NeZero n] (d : Fin n → Fin n → ℚ) (i j : Fin n) : ℚ :=
  d (i + 1) j + d (i - 1) j + d i (j + 1) + d i (j - 1) +
  d (i - 1) (j + 1) + d (i + 1) (j - 1)

/-- Whether any of the 6 toroidal hex neighbors is frozen (the `boundary`
test of the Melting stage), in source order. -/
def nbrAny [NeZero n] (a : Fin n → Fin n → Bool) (i j : Fin n) : Bool :=
  a (i + 1) j || a (i - 1) j || a i (j + 1) || a i (j - 1) ||
  a (i - 1) (j + 1) || a (i + 1) (j - 1)

/-- Stage (i) Diffusion: the new vapor density `d_new`.  `d_new` is
zero-initialised and only written at non-ice cells, where it becomes
`(d_old + Σ neighbor d + neighbors · d_old) / 7`. -/
def diffuse [NeZero n] (s : GGState n) (i j : Fin n) : ℚ :=
  if s.a i j then 0
  else (s.d i j + dsum6 s.d i j + (nbrCount s.a i j : ℚ) * s.d i j) / 7

/-- Stage (ii) Freezing: new boundary mass.  At a non-ice cell with at
least one frozen neighbor, `b += (1 - kappa) * d_new`. -/
def freezeB [NeZero n] (cfg : Cfg) (s : GGState n) (i j : Fin n) : ℚ :=
  if s.a i j = false ∧ nbrCount s.a i j ≠ 0
  then s.b i j + (1 - cfg.kappa) * diffuse s i j
  else s.b i j

/-- Stage (ii) Freezing: new crystal mass.  At a non-ice cell with at
least one frozen neighbor, `c += kappa * d_new`. -/
def freezeC [NeZero n] (cfg : Cfg) (s : GGState n) (i j : Fin n) : ℚ :=
  if s.a i j = false ∧ nbrCount s.a i j ≠ 0
  then s.c i j + cfg.kappa * diffuse s i j
  else s.c i j

/-- Stage (ii) Freezing: new vapor density.  At a non-ice cell with at
least one frozen neighbor the vapor is zeroed; elsewhere it keeps the
post-diffusion value. -/
def freezeD [NeZero n] (cfg : Cfg) (s : GGState n) (i j : Fin n) : ℚ :=
  if s.a i j = false ∧ nbrCount s.a i j ≠ 0 then 0 else diffuse s i j

/-- The attachment decision `match neighbors { ... }` of stage (iii).
`none` models the `panic!("not a boundary cell")` arm at `k == 0`. -/
def attachRule (cfg : Cfg) (k : ℕ) (b dsum : ℚ) : Option Bool :=
  match k with
  | 0 => none
  | 1 => some (decide (cfg.beta ≤ b))
  | 2 => some (decide (cfg.beta ≤ b))
  | 3 => some (decide (1 ≤ b ∨ (cfg.alpha ≤ b ∧ dsum < cfg.theta)))
  | _ + 4 => some true

/-- Stage (iii) Attachment: the new ice mask `a_new`.  Ice cells and
cells with no frozen neighbor are returned unchanged (the early
`return`); otherwise the attachment rule decides, reading the
post-Freezing boundary mass and the post-Freezing vapor densities of
the 6 neighbors. -/
def attachA [NeZero n] (cfg : Cfg) (s : GGState n) (i j : Fin n) : Bool :=
  if s.a i j || nbrCount s.a i j == 0 then s.a i j
  else (attachRule cfg (nbrCount s.a i j) (freezeB cfg s i j)
          (dsum6 (freezeD cfg s) i j)).getD (s.a i j)

/-- Whether the cell freezes during this step's Attachment stage
(the region where `if *a { *c += *b; *b = 0.0; }` fires). -/
def attaches [NeZero n] (cfg : Cfg) (s : GGState n) (i j : Fin n) : Bool :=
  !s.a i j && attachA cfg s i j

/-- Stage (iii) Attachment: new boundary mass (zeroed on freezing). -/
def attachB [NeZero n] (cfg : Cfg) (s : GGState n) (i j : Fin n) : ℚ :=
  if attaches cfg s i j then 0 else freezeB cfg s i j

/-- Stage (iii) Attachment: new crystal mass (absorbs the boundary mass
on freezing). -/
def attachC [NeZero n] (cfg : Cfg) (s : GGState n) (i j : Fin n) : ℚ :=
  if attaches cfg s i j then freezeC cfg s i j + freezeB cfg s i j
  else freezeC cfg s i j

/-- The Melting-stage boundary test: not ice in `a_new`, but adjacent to
some `a_new` ice cell. -/
def meltBoundary [NeZero n] (cfg : Cfg) (s : GGState n) (i j : Fin n) : Bool :=
  !attachA cfg s i j && nbrAny (attachA cfg s) i j

/-- Stage (iv) Melting: new boundary mass (`b -= mu * b` on the boundary). -/
def meltB [NeZero n] (cfg : Cfg) (s : GGState n) (i j : Fin n) : ℚ :=
  if meltBoundary cfg s i j
  then attachB cfg s i j - cfg.mu * attachB cfg s i j
  else attachB cfg s i j

/-- Stage (iv) Melting: new crystal mass (`c -= gamma * c` on the boundary). -/
def meltC [NeZero n] (cfg : Cfg) (s : GGState n) (i j : Fin n) : ℚ :=
  if meltBoundary cfg s i j
  then attachC cfg s i j - cfg.gamma * attachC cfg s i j
  else attachC cfg s i j

/-- Stage (iv) Melting: new vapor density (`d += mu*b + gamma*c` on the
boundary).  The Attachment stage never writes `d`, so the pre-Melting
vapor is the post-Freezing vapor. -/
def meltD [NeZero n] (cfg : Cfg) (s : GGState n) (i j : Fin n) : ℚ :=
  if meltBoundary cfg s i j
  then freezeD cfg s i j + (cfg.mu * attachB cfg s i j + cfg.gamma * attachC cfg s i j)
  else freezeD cfg s i j

/-- Stage (v) Noise: when `sigma.abs() > 0`, each cell's vapor is scaled
by `1 + sigma` or `1 - sigma` according to an independent coin; the coin
field is passed in explicitly. -/
def noiseD [NeZero n] (cfg : Cfg) (noise : Fin n → Fin n → Bool)
    (s : GGState n) (i j : Fin n) : ℚ :=
  if 0 < |cfg.sigma|
  then if noise i j then meltD cfg s i j * (1 + cfg.sigma)
       else meltD cfg s i j * (1 - cfg.sigma)
  else meltD cfg s i j

/-- `State::update`: one full five-stage step. -/
def update [NeZero n] (cfg : Cfg) (noise : Fin n → Fin n → Bool)
    (s : GGState n) : GGState n where
  a := attachA cfg s
  b := meltB cfg s
  c := meltC cfg s
  d := noiseD cfg noise s

/-- Sum of a per-cell rational field over the whole lattice. -/
def latticeSum (f : Fin n → Fin n → ℚ) : ℚ :=
  ∑ p : Fin n × Fin n, f p.1 p.2

/-- Total mass `Σ (b + c + d)` of a state. -/
def totalMass (s : GGState n) : ℚ :=
  latticeSum (fun i j => s.b i j + s.c i j + s.d i j)

/-- Reindexing a whole-lattice sum by a toroidal translation. -/
lemma latticeSum_shift [NeZero n] (g : Fin n → Fin n → ℚ) (u v : Fin n) :
    latticeSum (fun i j => g (i + u) (j + v)) = latticeSum g := by
  unfold latticeSum
  exact Fintype.sum_equiv ((Equiv.addRight u).prodCongr (Equiv.addRight v))
    (fun p => g (p.1 + u) (p.2 + v)) (fun p => g p.1 p.2) (fun p => rfl)

/-- Directed flow between a cell and one neighbor offset. -/
def flow [NeZero n] (s : GGState n) (u v : Fin n) (i j : Fin n) : ℚ :=
  (if s.a i j then 0 else 1) * (if s.a (i + u) (j + v) then 0 else 1) *
    (s.d (i + u) (j + v) - s.d i j)

lemma flow_pair [NeZero n] (s : GGState n) (u v : Fin n) :
    latticeSum (flow s u v) + latticeSum (flow s (-u) (-v)) = 0 := by
  have h : latticeSum (flow s (-u) (-v)) =
      latticeSum (fun i j => flow s (-u) (-v) (i + u) (j + v)) :=
    (latticeSum_shift (flow s (-u) (-v)) u v).symm
  rw [h]
  have h2 : ∀ i j : Fin n, flow s (-u) (-v) (i + u) (j + v) = -flow s u v i j := by
    intro i j
    unfold flow
    simp only [add_assoc, add_neg_cancel, add_zero]
    by_cases h1 : s.a i j <;> by_cases h2 : s.a (i + u) (j + v) <;> simp [h1, h2]
  simp only [h2]
  unfold latticeSum
  rw [← Finset.sum_add_distrib]
  simp


lemma diffuse_flow [NeZero n] (s : GGState n)
    (hd : ∀ i j, s.a i j = true → s.d i j = 0) (i j : Fin n) :
    7 * diffuse s i j - 7 * s.d i j =
      flow s 1 0 i j + flow s (-1) 0 i j + flow s 0 1 i j + flow s 0 (-1) i j +
      flow s (-1) 1 i j + flow s 1 (-1) i j := by
  unfold diffuse flow dsum6 nbrCount
  simp only [← sub_eq_add_neg, add_zero]
  by_cases h0 : s.a i j
  · simp [h0, hd i j h0]
  · push_cast
    by_cases h1 : s.a (i + 1) j <;> by_cases h2 : s.a (i - 1) j <;>
      by_cases h3 : s.a i (j + 1) <;> by_cases h4 : s.a i (j - 1) <;>
      by_cases h5 : s.a (i - 1) (j + 1) <;> by_cases h6 : s.a (i + 1) (j - 1) <;>
      simp [h0, h1, h2, h3, h4, h5, h6, hd] <;> ring


/-- The Diffusion stage conserves total vapor mass, provided ice cells
hold no vapor. -/
lemma diffusion_conserves [NeZero n] (s : GGState n)
    (hd : ∀ i j, s.a i j = true → s.d i j = 0) :
    latticeSum (diffuse s) = latticeSum s.d := by
  have key : latticeSum (fun i j => 7 * diffuse s i j - 7 * s.d i j) = 0 := by
    have e : latticeSum (fun i j => 7 * diffuse s i j - 7 * s.d i j) =
        (latticeSum (flow s 1 0) + latticeSum (flow s (-1) (-0))) +
        ((latticeSum (flow s 0 1) + latticeSum (flow s (-0) (-1))) +
        (latticeSum (flow s (-1) 1) + latticeSum (flow s (-(-1)) (-1)))) := by
      simp only [neg_zero, neg_neg]
      unfold latticeSum
      rw [← Finset.sum_add_distrib, ← Finset.sum_add_distrib, ← Finset.sum_add_distrib,
        ← Finset.sum_add_distrib, ← Finset.sum_add_distrib]
      refine Finset.sum_congr rfl fun p _ => ?_
      have h := diffuse_flow s hd p.1 p.2
      dsimp only
      linarith [h]
    rw [e, flow_pair s 1 0, flow_pair s 0 1, flow_pair s (-1) 1]
    ring
  have e2 : latticeSum (fun i j => 7 * diffuse s i j - 7 * s.d i j) =
      7 * latticeSum (diffuse s) - 7 * latticeSum s.d := by
    unfold latticeSum
    rw [Finset.sum_sub_distrib, ← Finset.mul_sum, ← Finset.mul_sum]
  rw [e2] at key
  linarith [key]


/-- Pointwise sums over the lattice split across addition. -/
lemma latticeSum_add (f g : Fin n → Fin n → ℚ) :
    latticeSum (fun i j => f i j + g i j) = latticeSum f + latticeSum g := by
  unfold latticeSum
  rw [← Finset.sum_add_distrib]

/-- Lattice sums of pointwise-equal fields agree. -/
lemma latticeSum_congr {f g : Fin n → Fin n → ℚ} (h : ∀ i j, f i j = g i j) :
    latticeSum f = latticeSum g := by
  unfold latticeSum
  exact Finset.sum_congr rfl fun p _ => h p.1 p.2

/-- The Freezing stage conserves per-cell mass. -/
lemma freeze_pointwise [NeZero n] (cfg : Cfg) (s : GGState n) (i j : Fin n) :
    freezeB cfg s i j + freezeC cfg s i j + freezeD cfg s i j =
      s.b i j + s.c i j + diffuse s i j := by
  unfold freezeB freezeC freezeD
  by_cases h : s.a i j = false ∧ nbrCount s.a i j ≠ 0 <;> simp [h] <;> ring

/-- The Attachment stage only relabels boundary mass as crystal mass. -/
lemma attach_pointwise [NeZero n] (cfg : Cfg) (s : GGState n) (i j : Fin n) :
    attachB cfg s i j + attachC cfg s i j =
      freezeB cfg s i j + freezeC cfg s i j := by
  unfold attachB attachC
  by_cases h : attaches cfg s i j <;> simp [h] <;> ring

/-- The Melting stage conserves per-cell mass. -/
lemma melt_pointwise [NeZero n] (cfg : Cfg) (s : GGState n) (i j : Fin n) :
    meltB cfg s i j + meltC cfg s i j + meltD cfg s i j =
      attachB cfg s i j + attachC cfg s i j + freezeD cfg s i j := by
  unfold meltB meltC meltD
  by_cases h : meltBoundary cfg s i j <;> simp [h] <;> ring

/-- With `sigma == 0` the Noise stage is skipped. -/
lemma noise_skipped [NeZero n] (cfg : Cfg) (noise : Fin n → Fin n → Bool)
    (s : GGState n) (h : cfg.sigma = 0) (i j : Fin n) :
    noiseD cfg noise s i j = meltD cfg s i j := by
  simp [noiseD, h]


/-- C1: with `sigma == 0` and every ice cell holding zero vapor, one
`State::update` call preserves total mass `Σ (b + c + d)`; Diffusion,
Freezing, Attachment and Melting are each mass-conserving in aggregate,
and Attachment only relabels boundary mass as crystal mass. -/
theorem mass_conservation_step [NeZero n] (cfg : Cfg)
    (noise : Fin n → Fin n → Bool) (s : GGState n)
    (hsig : cfg.sigma = 0) (hd : ∀ i j, s.a i j = true → s.d i j = 0) :
    totalMass (update cfg noise s) = totalMass s ∧
    latticeSum (diffuse s) = latticeSum s.d ∧
    (∀ i j, freezeB cfg s i j + freezeC cfg s i j + freezeD cfg s i j
        = s.b i j + s.c i j + diffuse s i j) ∧
    (∀ i j, attachB cfg s i j + attachC cfg s i j
        = freezeB cfg s i j + freezeC cfg s i j) ∧
    (∀ i j, meltB cfg s i j + meltC cfg s i j + meltD cfg s i j
        = attachB cfg s i j + attachC cfg s i j + freezeD cfg s i j) := by
  refine ⟨?_, diffusion_conserves s hd, freeze_pointwise cfg s,
    attach_pointwise cfg s, melt_pointwise cfg s⟩
  calc totalMass (update cfg noise s)
      = latticeSum (fun i j => meltB cfg s i j + meltC cfg s i j + meltD cfg s i j) := by
        unfold totalMass update
        exact latticeSum_congr fun i j => by
          dsimp only
          rw [noise_skipped cfg noise s hsig]
    _ = latticeSum (fun i j => attachB cfg s i j + attachC cfg s i j + freezeD cfg s i j) :=
        latticeSum_congr fun i j => melt_pointwise cfg s i j
    _ = latticeSum (fun i j => s.b i j + s.c i j + diffuse s i j) :=
        latticeSum_congr fun i j => by
          rw [attach_pointwise cfg s i j, freeze_pointwise cfg s i j]
    _ = latticeSum (fun i j => s.b i j + s.c i j) + latticeSum (diffuse s) :=
        latticeSum_add _ _
    _ = latticeSum (fun i j => s.b i j + s.c i j) + latticeSum s.d := by
        rw [diffusion_conserves s hd]
    _ = totalMass s := by
        unfold totalMass
        rw [← latticeSum_add]

theorem mass_conservation_step_witness :
    totalMass (update defaultCfg (fun _ _ => false) (initState 2 0))
      = totalMass (initState 2 0) ∧
    latticeSum (diffuse (initState 2 0)) = latticeSum (initState 2 0).d ∧
    (∀ i j, freezeB defaultCfg (initState 2 0) i j + freezeC defaultCfg (initState 2 0) i j
        + freezeD defaultCfg (initState 2 0) i j
        = (initState 2 0).b i j + (initState 2 0).c i j + diffuse (initState 2 0) i j) ∧
    (∀ i j, attachB defaultCfg (initState 2 0) i j + attachC defaultCfg (initState 2 0) i j
        = freezeB defaultCfg (initState 2 0) i j + freezeC defaultCfg (initState 2 0) i j) ∧
    (∀ i j, meltB defaultCfg (initState 2 0) i j + meltC defaultCfg (initState 2 0) i j
        + meltD defaultCfg (initState 2 0) i j
        = attachB defaultCfg (initState 2 0) i j + attachC defaultCfg (initState 2 0) i j
        + freezeD defaultCfg (initState 2 0) i j) :=
  mass_conservation_step defaultCfg (fun _ _ => false) (initState 2 0) rfl
    (fun i j _ => by simp [initState])

/-- C3: ice is monotone — a cell that is ice before `State::update` is
still ice after it; no stage ever resets the ice flag. -/
theorem ice_monotone [NeZero n] (cfg : Cfg) (noise : Fin n → Fin n → Bool)
    (s : GGState n) (i j : Fin n) (h : s.a i j = true) :
    (update cfg noise s).a i j = true := by
  simp [update, attachA, h]

theorem ice_monotone_witness :
    (update defaultCfg (fun _ _ => false) (initState 2 0)).a 1 1 = true :=
  ice_monotone defaultCfg (fun _ _ => false) (initState 2 0) 1 1 (by decide)

/-- C4: a cell that turns to ice during `State::update` had at least one
frozen neighbor at the start of the step. -/
theorem freeze_only_at_boundary [NeZero n] (cfg : Cfg)
    (noise : Fin n → Fin n → Bool) (s : GGState n) (i j : Fin n)
    (hb : s.a i j = false) (ha : (update cfg noise s).a i j = true) :
    0 < nbrCount s.a i j := by
  by_contra h
  have h0 : nbrCount s.a i j = 0 := by omega
  have he : (update cfg noise s).a i j = s.a i j := by simp [update, attachA, h0]
  rw [he, hb] at ha
  exact absurd ha (by simp)


/-- A parameter set that makes the cells adjacent to the seed attach in
the very first step (used to witness an actual `false → true` flip). -/
def eagerCfg : Cfg :=
  { rho := 1, beta := 0, alpha := 0, theta := 0, kappa := 0,
    mu := 0, gamma := 0, sigma := 0 }

theorem freeze_only_at_boundary_witness :
    0 < nbrCount (initState 2 1).a 0 0 :=
  freeze_only_at_boundary eagerCfg (fun _ _ => false) (initState 2 1) 0 0
    (by decide)
    (by
      have e1 : ((-1 : Fin 2)) = 1 := by decide
      have e2 : ((-2 : Fin 2)) = 0 := by decide
      simp +decide [update, attachA, attachRule, freezeB, freezeD, diffuse, dsum6,
        nbrCount, initState, eagerCfg, e1, e2, show seedIdx 2 = 1 from by decide]
      norm_num)

/-- C2: for a non-ice cell with pre-step ice-neighbor count `k ≥ 1`, the
cell becomes ice in this step exactly when `k ∈ {1,2}` and its
post-Freezing boundary mass reaches `beta`; or `k = 3` and the boundary
mass reaches `1`, or reaches `alpha` while the post-Freezing vapor over
the 6 neighbors stays below `theta`; or `k ≥ 4`. -/
theorem attachment_rule_correct [NeZero n] (cfg : Cfg)
    (noise : Fin n → Fin n → Bool) (s : GGState n) (i j : Fin n)
    (ha : s.a i j = false) (hk : 1 ≤ nbrCount s.a i j) :
    ((update cfg noise s).a i j = true ↔
      ((nbrCount s.a i j = 1 ∨ nbrCount s.a i j = 2) ∧ cfg.beta ≤ freezeB cfg s i j) ∨
      (nbrCount s.a i j = 3 ∧ (1 ≤ freezeB cfg s i j ∨
        (cfg.alpha ≤ freezeB cfg s i j ∧ dsum6 (freezeD cfg s) i j < cfg.theta))) ∨
      4 ≤ nbrCount s.a i j) := by
  have hk0 : (nbrCount s.a i j == 0) = false := by
    simp only [beq_eq_false_iff_ne, ne_eq]
    omega
  show attachA cfg s i j = true ↔ _
  unfold attachA
  rw [ha, hk0]
  rcases hEq : nbrCount s.a i j with _ | _ | _ | _ | m
  · omega
  · simp [attachRule, hEq]
  · simp [attachRule, hEq]
  · simp [attachRule, hEq]
  · simp only [attachRule, Bool.false_or, if_false, Option.getD_some,
      decide_eq_true_eq, hEq]
    constructor
    · intro _
      right
      right
      omega
    · intro _
      rfl

theorem attachment_rule_correct_witness :
    ((update defaultCfg (fun _ _ => false) (initState 2 0)).a 0 0 = true ↔
      ((nbrCount (initState 2 0).a 0 0 = 1 ∨ nbrCount (initState 2 0).a 0 0 = 2) ∧
        defaultCfg.beta ≤ freezeB defaultCfg (initState 2 0) 0 0) ∨
      (nbrCount (initState 2 0).a 0 0 = 3 ∧
        (1 ≤ freezeB defaultCfg (initState 2 0) 0 0 ∨
        (defaultCfg.alpha ≤ freezeB defaultCfg (initState 2 0) 0 0 ∧
          dsum6 (freezeD defaultCfg (initState 2 0)) 0 0 < defaultCfg.theta))) ∨
      4 ≤ nbrCount (initState 2 0).a 0 0) :=
  attachment_rule_correct defaultCfg (fun _ _ => false) (initState 2 0) 0 0
    (by decide) (by decide)

/-- C5: the invariant "every ice cell has zero vapor density" holds for
the state built by `State::new`, and is preserved by `State::update` for
every configuration — including `sigma ≠ 0` — and every outcome of the
noise coins. -/
theorem ice_vapor_invariant [NeZero n] (rho : ℚ) (cfg : Cfg)
    (noise : Fin n → Fin n → Bool) (s : GGState n)
    (hinv : ∀ i j, s.a i j = true → s.d i j = 0) :
    (∀ i j, (initState n rho).a i j = true → (initState n rho).d i j = 0) ∧
    (∀ i j, (update cfg noise s).a i j = true → (update cfg noise s).d i j = 0) := by
  constructor
  · intro i j h
    have : i = seedIdx n ∧ j = seedIdx n := by
      simpa [initState] using h
    simp [initState, this.1, this.2]
  · intro i j h
    replace h : attachA cfg s i j = true := h
    have hboundary : meltBoundary cfg s i j = false := by
      simp [meltBoundary, h]
    have hfd : freezeD cfg s i j = 0 := by
      by_cases hao : s.a i j
      · simp [freezeD, diffuse, hao]
      · have hab : s.a i j = false := by simpa using hao
        have hknz : nbrCount s.a i j ≠ 0 := by
          intro h0
          have : attachA cfg s i j = s.a i j := by simp [attachA, h0]
          rw [this, hab] at h
          exact absurd h (by simp)
        simp [freezeD, hab, hknz]
    show noiseD cfg noise s i j = 0
    unfold noiseD meltD
    rw [hboundary]
    simp [hfd]

theorem ice_vapor_invariant_witness :
    (∀ i j, (initState 2 (1/2)).a i j = true → (initState 2 (1/2)).d i j = 0) ∧
    (∀ i j, (update { defaultCfg with sigma := 1/10 } (fun i j => i == j)
        (initState 2 0)).a i j = true →
      (update { defaultCfg with sigma := 1/10 } (fun i j => i == j)
        (initState 2 0)).d i j = 0) :=
  ice_vapor_invariant (1/2) { defaultCfg with sigma := 1/10 } (fun i j => i == j)
    (initState 2 0) (fun i j _ => by simp [initState])

/-- C9: the `k == 0` panic arm of the Attachment stage is unreachable —
under the guard that returns early on ice cells and cells with zero
neighbor count, every cell reaching the match has `k ≥ 1`, so the rule
always produces a decision and `State::update` never aborts. -/
theorem attach_panic_unreachable [NeZero n] (cfg : Cfg) (s : GGState n)
    (i j : Fin n) (ha : s.a i j = false) (hk : nbrCount s.a i j ≠ 0) :
    1 ≤ nbrCount s.a i j ∧
    ∃ v, attachRule cfg (nbrCount s.a i j) (freezeB cfg s i j)
      (dsum6 (freezeD cfg s) i j) = some v := by
  refine ⟨by omega, ?_⟩
  rcases hEq : nbrCount s.a i j with _ | _ | _ | _ | m
  · exact absurd hEq hk
  · exact ⟨_, rfl⟩
  · exact ⟨_, rfl⟩
  · exact ⟨_, rfl⟩
  · exact ⟨true, rfl⟩

theorem attach_panic_unreachable_witness :
    1 ≤ nbrCount (initState 2 0).a 0 0 ∧
    ∃ v, attachRule defaultCfg (nbrCount (initState 2 0).a 0 0)
      (freezeB defaultCfg (initState 2 0) 0 0)
      (dsum6 (freezeD defaultCfg (initState 2 0)) 0 0) = some v :=
  attach_panic_unreachable defaultCfg (initState 2 0) 0 0 (by decide) (by decide)

/-- C6: from the initial state with `n = 10` and any `rho` (seed at
`(5,5)`), the neighbor counts computed in the first step are `1` exactly
at the 6 hex neighbors of the seed and `0` elsewhere, and the vapor
density each of those 6 cells holds after the Diffusion stage equals
`(rho*6 + rho)/7 = rho`: diffusion is a no-op on the uniform initial
field, the ice seed's zero contribution being compensated by one extra
copy of the cell's own density. -/
theorem first_step_scenario (rho : ℚ) :
    (∀ i j : Fin 10, nbrCount (initState 10 rho).a i j =
      (if (i = 6 ∧ j = 5) ∨ (i = 4 ∧ j = 5) ∨ (i = 5 ∧ j = 6) ∨
          (i = 5 ∧ j = 4) ∨ (i = 4 ∧ j = 6) ∨ (i = 6 ∧ j = 4)
       then 1 else 0)) ∧
    diffuse (initState 10 rho) 6 5 = rho ∧
    diffuse (initState 10 rho) 4 5 = rho ∧
    diffuse (initState 10 rho) 5 6 = rho ∧
    diffuse (initState 10 rho) 5 4 = rho ∧
    diffuse (initState 10 rho) 4 6 = rho ∧
    diffuse (initState 10 rho) 6 4 = rho := by
  have hseed : seedIdx 10 = 5 := by decide
  have hcnt : ∀ i j : Fin 10, nbrCount (initState 10 1).a i j =
      (if (i = 6 ∧ j = 5) ∨ (i = 4 ∧ j = 5) ∨ (i = 5 ∧ j = 6) ∨
          (i = 5 ∧ j = 4) ∨ (i = 4 ∧ j = 6) ∨ (i = 6 ∧ j = 4)
       then 1 else 0) := by decide
  refine ⟨fun i j => hcnt i j, ?_, ?_, ?_, ?_, ?_, ?_⟩ <;>
    (simp +decide [diffuse, initState, dsum6, nbrCount, hseed]; ring)


/-! ## Part II: the contour tracer `extract_contours` (src/utils.rs) -/

/-- A vertex of the doubled hexagonal coordinate system. -/
abbrev Pt := ℤ × ℤ

/-- The segment map: `FnvHashMap<(i32,i32),(i32,i32)>` modelled as an
association list whose entry order models the map's iteration order
(insertion order; an overwrite keeps the original position). -/
abbrev SegMap := List (Pt × Pt)

/-- `segments.get(&k)`. -/
def sget (m : SegMap) (k : Pt) : Option Pt :=
  (m.find? (fun e => e.1 = k)).map (·.2)

/-- `segments.insert(k, v)` (overwrite in place, append if new). -/
def sinsert (m : SegMap) (k v : Pt) : SegMap :=
  if m.any (fun e => e.1 = k) then m.map (fun e => if e.1 = k then (k, v) else e)
  else m ++ [(k, v)]

/-- `segments.remove(&k)`. -/
def sremove (m : SegMap) (k : Pt) : SegMap :=
  m.filter (fun e => !(e.1 = k))

/-- Emitting one directed edge: if the exact reverse edge is present the
two cancel, otherwise the edge is inserted. -/
def emitEdge (m : SegMap) (s e : Pt) : SegMap :=
  match sget m e with
  | some rs => if rs = s then sremove m e else sinsert m s e
  | none => sinsert m s e

/-- The doubled-coordinate center of grid cell `(i, j)`:
`(2*i + j, 3*j)`. -/
def center (i j : ℕ) : Pt := (2 * (i : ℤ) + (j : ℤ), 3 * (j : ℤ))

/-- The six directed boundary edges of the hexagon centered at `c`,
successive corners `c + directions[k] → c + directions[k+1]` for the
direction table `[(1,1),(0,2),(-1,1),(-1,-1),(0,-2),(1,-1)]`. -/
def cellEdges (c : Pt) : List (Pt × Pt) :=
  [ (c + ((1:ℤ), (1:ℤ)), c + ((0:ℤ), (2:ℤ))),
    (c + ((0:ℤ), (2:ℤ)), c + ((-1:ℤ), (1:ℤ))),
    (c + ((-1:ℤ), (1:ℤ)), c + ((-1:ℤ), (-1:ℤ))),
    (c + ((-1:ℤ), (-1:ℤ)), c + ((0:ℤ), (-2:ℤ))),
    (c + ((0:ℤ), (-2:ℤ)), c + ((1:ℤ), (-1:ℤ))),
    (c + ((1:ℤ), (-1:ℤ)), c + ((1:ℤ), (1:ℤ))) ]

/-- Emit the six edges of one true cell into the segment map. -/
def emitCell (m : SegMap) (c : Pt) : SegMap :=
  (cellEdges c).foldl (fun acc e => emitEdge acc e.1 e.2) m

/-- The grid indices in `indexed_iter` (row-major) order. -/
def indexList (n m : ℕ) : List (ℕ × ℕ) :=
  (List.range n).flatMap (fun i => (List.range m).map (fun j => (i, j)))

/-- The edge-emission pass over an `n × m` boolean grid. -/
def buildSegments (n m : ℕ) (g : ℕ → ℕ → Bool) : SegMap :=
  (indexList n m).foldl
    (fun segs p => if g p.1 p.2 then emitCell segs (center p.1 p.2) else segs) []

/-- The inner boundary walk `while let Some(&next) = segments.get(&current)`,
with explicit fuel; returns the vertices pushed after the start vertex and
the remaining segment map. -/
def walkFrom : ℕ → SegMap → Pt → List Pt × SegMap
  | 0, m, _ => ([], m)
  | fuel + 1, m, cur =>
    match sget m cur with
    | none => ([], m)
    | some nxt =>
      let r := walkFrom fuel (sremove m cur) nxt
      (nxt :: r.1, r.2)

/-- The outer loop `while !segments.is_empty()`, with explicit fuel: pop
the first remaining start key, walk its contour, repeat. -/
def walkAll : ℕ → SegMap → List (List Pt)
  | 0, _ => []
  | fuel + 1, m =>
    match m with
    | [] => []
    | (k, v) :: rest =>
      let r := walkFrom ((k, v) :: rest).length ((k, v) :: rest) k
      (k :: r.1) :: walkAll fuel r.2

/-- The final rescale `(scale * x / 2, scale * y / 2 / sqrt(3))`; the
`f32` value `3.0f32.sqrt()` is passed in as the rational `sqrt3`. -/
def rescale (scale sqrt3 : ℚ) (p : Pt) : ℚ × ℚ :=
  (scale * (p.1 : ℚ) / 2, scale * (p.2 : ℚ) / 2 / sqrt3)

/-- `extract_contours`: emit and cancel edges, walk the surviving closed
polylines, rescale. -/
def extract_contours (n m : ℕ) (g : ℕ → ℕ → Bool) (scale sqrt3 : ℚ) :
    List (List (ℚ × ℚ)) :=
  (walkAll (buildSegments n m g).length (buildSegments n m g)).map
    (fun c => c.map (rescale scale sqrt3))


/-- A successful lookup pins an entry with that key in the list. -/
lemma sget_mem {m : SegMap} {k v : Pt} (h : sget m k = some v) :
    ∃ e ∈ m, e.1 = k := by
  unfold sget at h
  rcases Option.map_eq_some'.1 h with ⟨e, he, _⟩
  exact ⟨e, List.mem_of_find?_eq_some he, by simpa using List.find?_some he⟩

/-- Each successful step of the boundary walk removes an entry from the
segment map. -/
lemma sremove_length_lt {m : SegMap} {k v : Pt} (h : sget m k = some v) :
    (sremove m k).length < m.length := by
  rcases sget_mem h with ⟨e, hem, hek⟩
  unfold sremove
  refine List.length_filter_lt_length_iff_exists.2 ⟨e, hem, ?_⟩
  simp [hek]

lemma walkFrom_nil (f : ℕ) (c : Pt) : walkFrom f [] c = ([], []) := by
  cases f <;> simp [walkFrom, sget]

lemma sremove_length_le (m : SegMap) (k : Pt) :
    (sremove m k).length ≤ m.length :=
  List.length_filter_le _ _

/-- The walk never grows the segment map. -/
lemma walkFrom_rest_length : ∀ (f : ℕ) (m : SegMap) (c : Pt),
    (walkFrom f m c).2.length ≤ m.length := by
  intro f
  induction f with
  | zero => intro m c; simp [walkFrom]
  | succ f ih =>
    intro m c
    unfold walkFrom
    cases h : sget m c with
    | none => simp
    | some nxt =>
      calc (walkFrom f (sremove m c) nxt).2.length
          ≤ (sremove m c).length := ih _ _
        _ ≤ m.length := sremove_length_le m c

/-- A walk started at a present key strictly shrinks the segment map. -/
lemma walkFrom_rest_lt {m : SegMap} {c v : Pt} (h : sget m c = some v)
    (f : ℕ) : (walkFrom (f + 1) m c).2.length < m.length := by
  unfold walkFrom
  rw [h]
  calc (walkFrom f (sremove m c) v).2.length
      ≤ (sremove m c).length := walkFrom_rest_length _ _ _
    _ < m.length := sremove_length_lt h

/-- Fuel adequacy of the inner walk: any fuel at least the map size
gives the same result as fuel exactly the map size. -/
lemma walkFrom_fuel : ∀ (f1 f2 : ℕ) (m : SegMap) (c : Pt),
    m.length ≤ f1 → m.length ≤ f2 → walkFrom f1 m c = walkFrom f2 m c := by
  intro f1
  induction f1 with
  | zero =>
    intro f2 m c h1 _
    have : m = [] := List.length_eq_zero.1 (Nat.le_zero.1 h1)
    subst this
    rw [walkFrom_nil, walkFrom_nil]
  | succ f1 ih =>
    intro f2 m c h1 h2
    cases m with
    | nil => rw [walkFrom_nil, walkFrom_nil]
    | cons e rest =>
      cases f2 with
      | zero => simp at h2
      | succ f2 =>
        show walkFrom (f1 + 1) (e :: rest) c = walkFrom (f2 + 1) (e :: rest) c
        unfold walkFrom
        cases h : sget (e :: rest) c with
        | none => rfl
        | some nxt =>
          have hlt := sremove_length_lt h
          have := ih f2 (sremove (e :: rest) c) nxt (by omega) (by omega)
          simp only [this]

/-- Fuel adequacy of the outer contour loop. -/
lemma walkAll_fuel : ∀ (f1 f2 : ℕ) (m : SegMap),
    m.length ≤ f1 → m.length ≤ f2 → walkAll f1 m = walkAll f2 m := by
  intro f1
  induction f1 with
  | zero =>
    intro f2 m h1 _
    have : m = [] := List.length_eq_zero.1 (Nat.le_zero.1 h1)
    subst this
    cases f2 <;> rfl
  | succ f1 ih =>
    intro f2 m h1 h2
    cases m with
    | nil => cases f2 <;> rfl
    | cons e rest =>
      cases f2 with
      | zero => simp at h2
      | succ f2 =>
        show walkAll (f1 + 1) (e :: rest) = walkAll (f2 + 1) (e :: rest)
        unfold walkAll
        have hget : sget (e :: rest) e.1 = some e.2 := by
          simp [sget, List.find?]
        have hlt := walkFrom_rest_lt hget (e :: rest).length.pred
        have hlen : (e :: rest).length.pred + 1 = (e :: rest).length := by
          simp
        rw [hlen] at hlt
        have := ih f2
          (walkFrom (e :: rest).length (e :: rest) e.1).2 (by omega) (by omega)
        simp only [this]


/-- Membership in the row-major index list. -/
lemma mem_indexList {a b n m : ℕ} :
    (a, b) ∈ indexList n m ↔ a < n ∧ b < m := by
  simp only [indexList, List.mem_flatMap, List.mem_map, List.mem_range,
    Prod.mk.injEq]
  constructor
  · rintro ⟨i, hi, j, hj, hia, hjb⟩
    subst hia
    subst hjb
    exact ⟨hi, hj⟩
  · rintro ⟨ha, hb⟩
    exact ⟨a, ha, b, hb, rfl, rfl⟩

/-- The row-major index list enumerates each cell exactly once. -/
lemma nodup_indexList : ∀ n m : ℕ, (indexList n m).Nodup := by
  intro n m
  induction n with
  | zero => simp [indexList]
  | succ n ih =>
    unfold indexList at ih ⊢
    rw [List.range_succ, List.flatMap_append]
    refine List.Nodup.append ih ?_ ?_
    · simp only [List.flatMap_cons, List.flatMap_nil, List.append_nil]
      exact (List.nodup_range m).map (fun x y h => by simpa using h)
    · intro p hp hp2
      simp only [List.flatMap_cons, List.flatMap_nil, List.append_nil,
        List.mem_map, List.mem_range] at hp2
      rcases hp2 with ⟨j, _, hj⟩
      rcases List.mem_flatMap.1 hp with ⟨i, hi, hpi⟩
      rcases List.mem_map.1 hpi with ⟨j2, _, hj2⟩
      rw [← hj2] at hj
      cases hj
      simp at hi

/-- C10: `extract_contours` terminates on every finite input: the
emission pass visits each grid index exactly once, each successful
iteration of a boundary walk removes one entry from the segment map, and
the fuel `segments.length` given to both walk loops is adequate — more
fuel never changes the result. -/
theorem extract_contours_terminates :
    (∀ a b : ℕ, (indexList a b).Nodup) ∧
    (∀ (m : SegMap) (k v : Pt), sget m k = some v →
      (sremove m k).length < m.length) ∧
    (∀ (f : ℕ) (m : SegMap) (c : Pt), m.length ≤ f →
      walkFrom f m c = walkFrom m.length m c) ∧
    (∀ (f : ℕ) (m : SegMap), m.length ≤ f →
      walkAll f m = walkAll m.length m) := by
  refine ⟨nodup_indexList, fun m k v h => sremove_length_lt h,
    fun f m c hf => walkFrom_fuel f m.length m c hf le_rfl,
    fun f m hf => walkAll_fuel f m.length m hf le_rfl⟩

theorem extract_contours_terminates_witness :
    (indexList 2 3).Nodup ∧
    (sremove (emitCell [] (center 0 0)) ((1:ℤ), (1:ℤ))).length <
      (emitCell [] (center 0 0)).length ∧
    walkFrom 10 (emitCell [] (center 0 0)) ((1:ℤ), (1:ℤ)) =
      walkFrom (emitCell [] (center 0 0)).length (emitCell [] (center 0 0))
        ((1:ℤ), (1:ℤ)) ∧
    walkAll 10 (emitCell [] (center 0 0)) =
      walkAll (emitCell [] (center 0 0)).length (emitCell [] (center 0 0)) :=
  ⟨extract_contours_terminates.1 2 3,
   extract_contours_terminates.2.1 (emitCell [] (center 0 0)) ((1:ℤ), (1:ℤ))
     ((0:ℤ), (2:ℤ)) (by decide),
   extract_contours_terminates.2.2.1 10 (emitCell [] (center 0 0))
     ((1:ℤ), (1:ℤ)) (by decide),
   extract_contours_terminates.2.2.2 10 (emitCell [] (center 0 0)) (by decide)⟩


/-- Folding a guarded step function is folding over the filtered list. -/
lemma foldl_guard {α β : Type} (f : β → α → β) (q : α → Bool) :
    ∀ (l : List α) (init : β),
      l.foldl (fun s x => if q x then f s x else s) init =
        (l.filter q).foldl f init := by
  intro l
  induction l with
  | nil => intro init; rfl
  | cons x tl ih =>
    intro init
    cases hx : q x <;> simp [List.filter_cons, hx, ih]

/-- If a predicate holds exactly on the members of a sublist of a
duplicate-free list, filtering recovers that sublist, in order. -/
lemma filter_eq_of_sublist {α : Type} {l s : List α} {p : α → Bool}
    (hnd : l.Nodup) (hsub : s.Sublist l)
    (hmem : ∀ y ∈ l, (p y = true ↔ y ∈ s)) : l.filter p = s := by
  induction l generalizing s with
  | nil =>
    cases List.sublist_nil.1 hsub
    rfl
  | cons x tl ih =>
    rcases List.nodup_cons.1 hnd with ⟨hx, hnd'⟩
    cases hpx : p x with
    | true =>
      have hxs : x ∈ s := (hmem x (by simp)).1 hpx
      rcases List.sublist_cons_iff.1 hsub with h | ⟨r, hr, hrsub⟩
      · exact absurd (h.subset hxs) hx
      · subst hr
        rw [List.filter_cons_of_pos hpx]
        congr 1
        refine ih hnd' hrsub fun y hy => ?_
        rw [hmem y (by simp [hy])]
        constructor
        · intro hys
          rcases List.mem_cons.1 hys with rfl | h
          · exact absurd hy hx
          · exact h
        · intro h
          exact List.mem_cons_of_mem x h
    | false =>
      have hxs : x ∉ s := fun h => by
        rw [(hmem x (by simp)).2 h] at hpx
        cases hpx
      have hsub' : s.Sublist tl := by
        rcases List.sublist_cons_iff.1 hsub with h | ⟨r, hr, _⟩
        · exact h
        · subst hr
          exact absurd (by simp) hxs
      rw [List.filter_cons_of_neg (by simp [hpx])]
      refine ih hnd' hsub' fun y hy => hmem y (by simp [hy])

/-- A sublist of row indices induces a sublist of the flattened index
list. -/
lemma sublist_flatMap {α β : Type} {l1 l2 : List α} (f : α → List β)
    (h : l1.Sublist l2) : (l1.flatMap f).Sublist (l2.flatMap f) := by
  induction h with
  | slnil => simp
  | cons a _ ih =>
    rw [List.flatMap_cons]
    exact ih.trans (List.sublist_append_right _ _)
  | cons₂ a _ ih =>
    rw [List.flatMap_cons, List.flatMap_cons]
    exact ih.append_left _

/-- Two consecutive numbers form a sublist of `range`. -/
lemma pair_sublist_range {j m : ℕ} (h : j + 1 < m) :
    [j, j + 1].Sublist (List.range m) := by
  have hm : m = (j + 2) + (m - (j + 2)) := by omega
  rw [hm, List.range_add]
  refine List.Sublist.trans ?_ (List.sublist_append_left _ _)
  have : List.range (j + 2) = List.range j ++ [j, j + 1] := by
    rw [List.range_add]
    rfl
  rw [this]
  exact List.sublist_append_right _ _

/-- A single number forms a sublist of `range`. -/
lemma single_sublist_range {j m : ℕ} (h : j < m) :
    [j].Sublist (List.range m) :=
  List.singleton_sublist.2 (List.mem_range.2 h)


/-- Translating every endpoint of a segment map. -/
def tmap (t : Pt) (m : SegMap) : SegMap :=
  m.map (fun e => (t + e.1, t + e.2))

lemma tmap_length (t : Pt) (m : SegMap) : (tmap t m).length = m.length :=
  List.length_map _ _

lemma sget_tmap (t : Pt) (m : SegMap) (k : Pt) :
    sget (tmap t m) (t + k) = (sget m k).map (t + ·) := by
  induction m with
  | nil => rfl
  | cons e tl ih =>
    by_cases h : e.1 = k
    · subst h
      simp [sget, tmap, List.find?]
    · have h2 : ¬(t + e.1 = t + k) := fun hc => h (add_left_cancel hc)
      have d1 : (decide (e.1 = k)) = false := by simpa using h
      have d2 : (decide (t + e.1 = t + k)) = false := by simpa using h2
      unfold sget tmap at ih ⊢
      simp only [List.map_cons, List.find?, d1, d2]
      exact ih

lemma sinsert_tmap (t : Pt) (m : SegMap) (k v : Pt) :
    sinsert (tmap t m) (t + k) (t + v) = tmap t (sinsert m k v) := by
  have hfun : ((fun e : Pt × Pt => decide (e.1 = t + k)) ∘
        fun e : Pt × Pt => (t + e.1, t + e.2))
      = fun e : Pt × Pt => decide (e.1 = k) := by
    funext e
    simp only [Function.comp]
    by_cases h : e.1 = k
    · simp [h]
    · simp [h, fun hc => h (add_left_cancel hc)]
  unfold sinsert tmap
  rw [List.any_map, hfun]
  cases h : m.any fun e => decide (e.1 = k) with
  | false => simp
  | true =>
    simp only [if_true]
    rw [List.map_map, List.map_map]
    refine List.map_congr_left fun e he => ?_
    simp only [Function.comp]
    by_cases hk : e.1 = k
    · simp [hk]
    · simp [hk, fun hc => hk (add_left_cancel hc)]

lemma sremove_tmap (t : Pt) (m : SegMap) (k : Pt) :
    sremove (tmap t m) (t + k) = tmap t (sremove m k) := by
  unfold sremove tmap
  rw [List.filter_map]
  congr 1
  refine List.filter_congr fun e _ => ?_
  simp only [Function.comp]
  by_cases hk : e.1 = k
  · simp [hk]
  · simp [hk, fun hc => hk (add_left_cancel hc)]

lemma emitEdge_tmap (t : Pt) (m : SegMap) (s e : Pt) :
    emitEdge (tmap t m) (t + s) (t + e) = tmap t (emitEdge m s e) := by
  unfold emitEdge
  rw [sget_tmap]
  cases h : sget m e with
  | none => exact sinsert_tmap t m s e
  | some rs =>
    rw [Option.map_some']
    show (if t + rs = t + s then sremove (tmap t m) (t + e)
        else sinsert (tmap t m) (t + s) (t + e)) =
      tmap t (if rs = s then sremove m e else sinsert m s e)
    by_cases hrs : rs = s
    · rw [if_pos (by rw [hrs]), if_pos hrs]
      exact sremove_tmap t m e
    · rw [if_neg (fun hc => hrs (add_left_cancel hc)), if_neg hrs]
      exact sinsert_tmap t m s e

lemma emitCell_tmap (t : Pt) (m : SegMap) (c : Pt) :
    emitCell (tmap t m) (t + c) = tmap t (emitCell m c) := by
  unfold emitCell cellEdges
  simp only [List.foldl_cons, List.foldl_nil, add_assoc]
  repeat rw [emitEdge_tmap]

lemma walkFrom_succ (f : ℕ) (m : SegMap) (c : Pt) :
    walkFrom (f + 1) m c =
      match sget m c with
      | none => ([], m)
      | some nxt =>
        (nxt :: (walkFrom f (sremove m c) nxt).1,
          (walkFrom f (sremove m c) nxt).2) := rfl

lemma walkFrom_tmap (t : Pt) : ∀ (f : ℕ) (m : SegMap) (c : Pt),
    walkFrom f (tmap t m) (t + c) =
      ((walkFrom f m c).1.map (t + ·), tmap t (walkFrom f m c).2) := by
  intro f
  induction f with
  | zero => intro m c; rfl
  | succ f ih =>
    intro m c
    rw [walkFrom_succ, walkFrom_succ, sget_tmap]
    cases h : sget m c with
    | none => rfl
    | some nxt =>
      rw [Option.map_some']
      show ((t + nxt) :: (walkFrom f (sremove (tmap t m) (t + c)) (t + nxt)).1,
          (walkFrom f (sremove (tmap t m) (t + c)) (t + nxt)).2) = _
      rw [sremove_tmap, ih (sremove m c) nxt]
      rfl

lemma walkAll_cons (f : ℕ) (e : Pt × Pt) (rest : SegMap) :
    walkAll (f + 1) (e :: rest) =
      (e.1 :: (walkFrom (e :: rest).length (e :: rest) e.1).1)
        :: walkAll f (walkFrom (e :: rest).length (e :: rest) e.1).2 := rfl

lemma walkAll_tmap (t : Pt) : ∀ (f : ℕ) (m : SegMap),
    walkAll f (tmap t m) = (walkAll f m).map (List.map (t + ·)) := by
  intro f
  induction f with
  | zero => intro m; rfl
  | succ f ih =>
    intro m
    cases m with
    | nil => rfl
    | cons e rest =>
      have h1 : tmap t (e :: rest) = (t + e.1, t + e.2) :: tmap t rest := rfl
      rw [h1, walkAll_cons, walkAll_cons]
      have hlen : ((t + e.1, t + e.2) :: tmap t rest).length
          = (e :: rest).length := by
        simp [tmap_length]
      rw [hlen, show ((t + e.1, t + e.2) :: tmap t rest) = tmap t (e :: rest)
        from rfl]
      rw [show ((t + e.1, t + e.2).1 : Pt) = t + e.1 from rfl,
        walkFrom_tmap t (e :: rest).length (e :: rest) e.1,
        ih (walkFrom (e :: rest).length (e :: rest) e.1).2]
      rfl


/-- The segment map emitted by a single true cell at the origin. -/
def originHexSegs : SegMap := emitCell [] 0

/-- The closed hexagon boundary walked from a single origin cell: the six
hexagon corners in emission order, with the starting corner repeated. -/
def originHexLoop : List Pt :=
  [(1, 1), (0, 2), (-1, 1), (-1, -1), (0, -2), (1, -1), (1, 1)]

/-- The hexagon boundary loop of grid cell `(i, j)`. -/
def hexLoop (i j : ℕ) : List Pt := originHexLoop.map (center i j + ·)

/-- The emission pass processes exactly the true cells, in row-major
order. -/
lemma buildSegments_filter (n m : ℕ) (g : ℕ → ℕ → Bool) :
    buildSegments n m g =
      ((indexList n m).filter (fun p => g p.1 p.2)).foldl
        (fun segs p => emitCell segs (center p.1 p.2)) [] :=
  foldl_guard _ _ _ _

/-- C7: for every boolean mask with exactly one true cell,
`extract_contours` returns exactly one contour: the closed hexagonal
polyline through the cell's 6 hexagon corners (start corner repeated at
the end, so 7 entries over 6 distinct vertices), rescaled by
`x' = scale*x/2` and `y' = scale*y/(2*sqrt3)`. -/
theorem single_cell_contour (n m i0 j0 : ℕ) (g : ℕ → ℕ → Bool)
    (scale sqrt3 : ℚ) (hi : i0 < n) (hj : j0 < m)
    (hg : ∀ i j, i < n → j < m → (g i j = true ↔ (i, j) = (i0, j0))) :
    extract_contours n m g scale sqrt3 =
      [(hexLoop i0 j0).map (rescale scale sqrt3)] ∧
    ((hexLoop i0 j0).map (rescale scale sqrt3)).length = 7 ∧
    ((hexLoop i0 j0).map (rescale scale sqrt3)).head? =
      ((hexLoop i0 j0).map (rescale scale sqrt3)).getLast? ∧
    (hexLoop i0 j0).dropLast.Nodup := by
  have hfilter : (indexList n m).filter (fun p => g p.1 p.2) = [(i0, j0)] := by
    refine filter_eq_of_sublist (nodup_indexList n m)
      (List.singleton_sublist.2 (mem_indexList.2 ⟨hi, hj⟩)) ?_
    rintro ⟨a, b⟩ hy
    rcases mem_indexList.1 hy with ⟨ha, hb⟩
    rw [hg a b ha hb]
    simp
  have hbuild : buildSegments n m g = tmap (center i0 j0) originHexSegs := by
    rw [buildSegments_filter, hfilter]
    show emitCell [] (center i0 j0) = _
    have h0 := emitCell_tmap (center i0 j0) [] 0
    rw [add_zero] at h0
    exact h0
  refine ⟨?_, rfl, rfl, ?_⟩
  · unfold extract_contours
    rw [hbuild, tmap_length]
    have hlen : originHexSegs.length = 6 := by decide
    rw [hlen, walkAll_tmap]
    have hwalk : walkAll 6 originHexSegs = [originHexLoop] := by decide
    rw [hwalk]
    simp [hexLoop]
  · have hdl : (hexLoop i0 j0).dropLast =
        originHexLoop.dropLast.map (center i0 j0 + ·) := rfl
    rw [hdl]
    exact (by decide : originHexLoop.dropLast.Nodup).map
      (fun x y h => add_left_cancel h)


theorem single_cell_contour_witness :
    extract_contours 3 3 (fun i j => i == 1 && j == 1) 2 2 =
      [(hexLoop 1 1).map (rescale 2 2)] ∧
    ((hexLoop 1 1).map (rescale 2 2)).length = 7 ∧
    ((hexLoop 1 1).map (rescale 2 2)).head? =
      ((hexLoop 1 1).map (rescale 2 2)).getLast? ∧
    (hexLoop 1 1).dropLast.Nodup :=
  single_cell_contour 3 3 1 1 (fun i j => i == 1 && j == 1) 2 2
    (by omega) (by omega) (fun i j _ _ => by simp [Prod.ext_iff])

/-- The segment map emitted by the 2×2 block of cells
`(0,0), (0,1), (1,0), (1,1)` in row-major order: 24 edges are emitted,
the 5 interior shared edges cancel in both directions, and 14 boundary
edges survive. -/
def originBlockSegs : SegMap :=
  emitCell (emitCell (emitCell (emitCell [] (center 0 0)) (center 0 1))
    (center 1 0)) (center 1 1)

/-- The single closed boundary polyline of the origin 2×2 block: its 14
boundary vertices in walk order, with the starting vertex repeated. -/
def originBlockLoop : List Pt :=
  [(0, 2), (-1, 1), (-1, -1), (0, -2), (1, -1), (2, -2), (3, -1), (3, 1),
   (4, 2), (4, 4), (3, 5), (2, 4), (1, 5), (0, 4), (0, 2)]

/-- The boundary loop of the 2×2 block whose lower-left cell is `(i, j)`. -/
def blockLoop (i j : ℕ) : List Pt := originBlockLoop.map (center i j + ·)

/-- A concrete 4×4 mask whose true cells are the 2×2 block at `(1, 1)`. -/
def blockGrid : ℕ → ℕ → Bool :=
  fun i j => decide ((1 ≤ i ∧ i ≤ 2) ∧ 1 ≤ j ∧ j ≤ 2)

set_option maxHeartbeats 2000000 in
/-- C8 as stated is false: for the solid 2×2 block the emitted 24 edges
lose only the 5 doubly-emitted interior edges, leaving 14 boundary edges,
so the single contour has 14 distinct vertices (15 entries with the
start repeated) — not 8. -/
theorem block_contour_counterexample :
    (buildSegments 4 4 blockGrid).length = 14 ∧
    (extract_contours 4 4 blockGrid 2 2).map List.length = [15] ∧
    (14 : ℕ) ≠ 8 ∧ (15 : ℕ) ≠ 8 ∧ (15 : ℕ) ≠ 9 := by
  refine ⟨by decide, ?_, by decide, by decide, by decide⟩
  decide

set_option maxHeartbeats 2000000 in
/-- C8 (amended): for every mask whose true cells are exactly a solid
2×2 block away from the torus wrap, `extract_contours` returns exactly
one contour and its length in vertices equals the perimeter edge count
remaining after interior-edge cancellation — namely 14 boundary edges
(24 emitted edges minus the two copies of each of the 5 interior edges),
i.e. 15 polyline entries with the start vertex repeated. -/
theorem block_contour (n m i0 j0 : ℕ) (g : ℕ → ℕ → Bool)
    (scale sqrt3 : ℚ) (hi : i0 + 1 < n) (hj : j0 + 1 < m)
    (hg : ∀ i j, i < n → j < m → (g i j = true ↔
      ((i, j) = (i0, j0) ∨ (i, j) = (i0, j0 + 1) ∨
       (i, j) = (i0 + 1, j0) ∨ (i, j) = (i0 + 1, j0 + 1)))) :
    extract_contours n m g scale sqrt3 =
      [(blockLoop i0 j0).map (rescale scale sqrt3)] ∧
    (buildSegments n m g).length = 14 ∧
    ((blockLoop i0 j0).map (rescale scale sqrt3)).length = 15 ∧
    ((blockLoop i0 j0).map (rescale scale sqrt3)).head? =
      ((blockLoop i0 j0).map (rescale scale sqrt3)).getLast? ∧
    (blockLoop i0 j0).dropLast.Nodup := by
  have hfilter : (indexList n m).filter (fun p => g p.1 p.2) =
      [(i0, j0), (i0, j0 + 1), (i0 + 1, j0), (i0 + 1, j0 + 1)] := by
    refine filter_eq_of_sublist (nodup_indexList n m) ?_ ?_
    · have hrows : [i0, i0 + 1].Sublist (List.range n) :=
        pair_sublist_range hi
      have hflat := sublist_flatMap
        (fun i => (List.range m).map (fun j => (i, j))) hrows
      refine List.Sublist.trans ?_ hflat
      show ([(i0, j0), (i0, j0 + 1)] ++ [(i0 + 1, j0), (i0 + 1, j0 + 1)]).Sublist
        ((List.range m).map (fun j => (i0, j)) ++
          ((List.range m).map (fun j => (i0 + 1, j)) ++ []))
      rw [List.append_nil]
      refine List.Sublist.append ?_ ?_
      · have := (pair_sublist_range hj).map (fun j => (i0, j))
        simpa using this
      · have := (pair_sublist_range hj).map (fun j => (i0 + 1, j))
        simpa using this
    · rintro ⟨a, b⟩ hy
      rcases mem_indexList.1 hy with ⟨ha, hb⟩
      rw [hg a b ha hb]
      simp
  have hc : ∀ a b : ℕ, center (i0 + a) (j0 + b) = center i0 j0 + center a b := by
    intro a b
    simp only [center, Prod.mk_add_mk, Prod.mk.injEq]
    constructor <;> push_cast <;> ring
  have hbuild : buildSegments n m g = tmap (center i0 j0) originBlockSegs := by
    rw [buildSegments_filter, hfilter]
    simp only [List.foldl_cons, List.foldl_nil]
    have e00 : center i0 j0 = center i0 j0 + center 0 0 := by
      simpa using (hc 0 0)
    rw [show center i0 (j0 + 1) = center i0 j0 + center 0 1 from hc 0 1,
      show center (i0 + 1) j0 = center i0 j0 + center 1 0 from hc 1 0,
      show center (i0 + 1) (j0 + 1) = center i0 j0 + center 1 1 from hc 1 1]
    rw [show emitCell [] (center i0 j0)
        = tmap (center i0 j0) (emitCell [] (center 0 0)) from by
      rw [e00]
      exact emitCell_tmap (center i0 j0) [] (center 0 0)]
    rw [emitCell_tmap, emitCell_tmap, emitCell_tmap]
    rfl
  refine ⟨?_, ?_, rfl, rfl, ?_⟩
  · unfold extract_contours
    rw [hbuild, tmap_length]
    have hlen : originBlockSegs.length = 14 := by decide
    rw [hlen, walkAll_tmap]
    have hwalk : walkAll 14 originBlockSegs = [originBlockLoop] := by decide
    rw [hwalk]
    simp [blockLoop]
  · rw [hbuild, tmap_length]
    decide
  · have hdl : (blockLoop i0 j0).dropLast =
        originBlockLoop.dropLast.map (center i0 j0 + ·) := rfl
    rw [hdl]
    exact (by decide : originBlockLoop.dropLast.Nodup).map
      (fun x y h => add_left_cancel h)

theorem block_contour_witness :
    extract_contours 4 4 blockGrid 2 2 =
      [(blockLoop 1 1).map (rescale 2 2)] ∧
    (buildSegments 4 4 blockGrid).length = 14 ∧
    ((blockLoop 1 1).map (rescale 2 2)).length = 15 ∧
    ((blockLoop 1 1).map (rescale 2 2)).head? =
      ((blockLoop 1 1).map (rescale 2 2)).getLast? ∧
    (blockLoop 1 1).dropLast.Nodup :=
  block_contour 4 4 1 1 blockGrid 2 2 (by omega) (by omega)
    (fun i j _ _ => by
      simp only [blockGrid, Prod.ext_iff, decide_eq_true_eq]
      omega)

end Snowflake
